import Mathlib

/-!
Verification development for the transit-map lines renderer worker
(`src/views/map/worker-linesrenderer.ts`).

The worker ingests a shared-topology description of a transit network
(arc table plus routes referencing arcs by signed index) and renders
per-color offset polylines.  This file is a shallow embedding of that
code: pure functions are translated to Lean functions, JS `Map`s become
insertion-ordered association lists, fallible paths (JS exceptions)
become `Option`, and JS floating-point numbers are modelled as real
numbers.  External geometry dependencies (turf's `booleanIntersects`,
`lineOffset` and the `to-smooth` smoother) are parameters of the render
pipeline; turf's `length`/`lineSliceAlong` are modelled from the spec
(see the doc comments at their definitions).
-/

namespace MapViewer

/-- A geographic coordinate pair `[longitude, latitude]` (source type `coordpair`). -/
abbrev coordpair : Type := ℝ × ℝ

/-! ## JavaScript primitives used by the worker -/

/-- Value of one hexadecimal digit character, as accepted by JS `parseInt(-, 16)`. -/
def hexVal (c : Char) : Option ℕ :=
  if '0' ≤ c ∧ c ≤ '9' then some (c.toNat - '0'.toNat)
  else if 'a' ≤ c ∧ c ≤ 'f' then some (c.toNat - 'a'.toNat + 10)
  else if 'A' ≤ c ∧ c ≤ 'F' then some (c.toNat - 'A'.toNat + 10)
  else none

/-- JS `parseInt(s, 16)`: parses the longest leading run of hex digits.
(The NaN result for a string with no leading hex digit is not modelled;
every call site in the worker passes strings of hex digits.) -/
def parseIntHex (s : String) : ℕ :=
  (s.data.takeWhile (fun c => (hexVal c).isSome)).foldl
    (fun a c => a * 16 + (hexVal c).getD 0) 0

/-- JS `String.prototype.substring(a, b)`: both indices are clamped to the
string length, and swapped when the first exceeds the second. -/
def jsSubstring (s : String) (a b : ℕ) : String :=
  let lo := min (min a s.length) (min b s.length)
  let hi := max (min a s.length) (min b s.length)
  String.mk ((s.data.drop lo).take (hi - lo))

/-- Decimal digit characters of `n`, most significant first, with explicit
fuel so that the definition is structurally recursive (and hence reduces
inside `decide`/`rfl`). -/
def toDecAux : ℕ → ℕ → List Char
  | 0, _ => []
  | fuel + 1, n =>
    if n < 10 then [Nat.digitChar n]
    else toDecAux fuel (n / 10) ++ [Nat.digitChar (n % 10)]

/-- JS `String(n)` for a non-negative number: its decimal representation. -/
def natToDecStr (n : ℕ) : String := String.mk (toDecAux (n + 1) n)

/-- JS `s || dflt` for strings: the empty string is the only falsy string. -/
def jsOr (s dflt : String) : String := if s = "" then dflt else s

/-- JS `Math.round`: halves round toward positive infinity. -/
noncomputable def jsRound (x : ℝ) : ℤ := ⌊x + 1 / 2⌋

/-- Insertion-ordered deduplication: the order in which a JS `Set` built
from a list iterates its elements. -/
def dedupKeepFirst (l : List String) : List String :=
  l.foldl (fun acc x => if x ∈ acc then acc else acc ++ [x]) []

/-! ## Topology input and ingested data model -/

/-- One route from `objects.lines.geometries`: an ordered list of signed
arc references plus `properties` metadata. -/
structure RouteGeometry where
  arcs : List ℤ
  stroke : String
  title : String
  agency : String

/-- The `topojsonExport` payload, restricted to the fields the worker
reads (`bbox` and `upperBounds` are never used by the renderer). -/
structure topojsonExport where
  geometries : List RouteGeometry
  arcs : List (List coordpair)

/-- An ingested segment: one arc plus derived data. -/
structure LineSegment where
  geometry : List coordpair
  top : coordpair
  bottom : coordpair
  colors : List String

/-- A directed join between two segment endpoints for one color
(source type `LineConnection`; `from` is a Lean keyword, hence `from_`). -/
structure LineConnection where
  from_ : ℕ × String
  to_ : ℕ × String
  color : String
deriving DecidableEq

/-! ## TopologyIngester -/

/-- Unsigned id of a signed arc reference: `prev < 0 ? prev * -1 - 1 : prev`. -/
def unsignedId (n : ℤ) : ℕ := if n < 0 then (n * (-1) - 1).toNat else n.toNat

/-- The connection derived from one adjacent pair `(prev, cur)` of a route's
arc-reference list (`extractLineConnections`'s reduce callback). -/
def mkConn (stroke : String) (prev cur : ℤ) : LineConnection :=
  { from_ := (unsignedId prev, if prev < 0 then "top" else "bottom")
    to_ := (unsignedId cur, if cur < 0 then "bottom" else "top")
    color := stroke }

/-- The dedup key `[stroke, fromId, fromPart, toId, toPart].join(':')`. -/
def DedupeString (c : LineConnection) : String :=
  c.color ++ ":" ++ natToDecStr c.from_.1 ++ ":" ++ c.from_.2 ++ ":" ++
    natToDecStr c.to_.1 ++ ":" ++ c.to_.2

/-- The two arrays `Connections` and `ConnectionsDedupe` that
`extractLineConnections` pushes into. -/
structure ConnState where
  Connections : List LineConnection
  ConnectionsDedupe : List String

/-- One push step of `extractLineConnections`: append the connection unless
its dedup string was seen before. -/
def addConn (st : ConnState) (c : LineConnection) : ConnState :=
  if DedupeString c ∈ st.ConnectionsDedupe then st
  else ⟨st.Connections ++ [c], st.ConnectionsDedupe ++ [DedupeString c]⟩

/-- The adjacent pairs visited by `line.arcs.reduce((prev, cur) => ...)`
on a nonempty list. -/
def adjPairs (l : List ℤ) : List (ℤ × ℤ) := l.zip l.tail

/-- All connections a single route generates, in visit order. -/
def routeConns (g : RouteGeometry) : List LineConnection :=
  (adjPairs g.arcs).map (fun pr => mkConn g.stroke pr.1 pr.2)

/-- `extractLineConnections`.  `Array.prototype.reduce` with no initial
value throws a `TypeError` on an empty array, so a topology containing a
route with an empty `arcs` list makes the whole extraction throw; this is
modelled as `none`. -/
def extractLineConnections (T : topojsonExport) : Option (List LineConnection) :=
  if T.geometries.any (fun g => g.arcs.isEmpty) then none
  else some (((T.geometries.flatMap routeConns).foldl addConn ⟨[], []⟩).Connections)

/-- `ExtractLineSegments`.  Note the source's conditional
`i < 0 ? line.arcs.includes(i * -1 - 1) : line.arcs.includes(i)` is kept
verbatim even though the loop index `i` is never negative.  The JS
`new Set(geometries.map(...))` collects `undefined` for non-matching
routes and the `.filter((e) => e != null)` drops it afterwards; this is
modelled by `filterMap` (insertion order of the surviving colors is the
same). -/
def ExtractLineSegments (T : topojsonExport) : List (String × LineSegment) :=
  (List.range T.arcs.length).map (fun (i : ℕ) =>
    let colorsInSegment := dedupKeepFirst (T.geometries.filterMap (fun g =>
      if (if (i : ℤ) < 0 then g.arcs.contains ((i : ℤ) * (-1) - 1)
          else g.arcs.contains (i : ℤ))
      then some (jsOr g.stroke "#000000") else none))
    ("Segment:" ++ natToDecStr i,
      { geometry := T.arcs.getD i []
        top := (T.arcs.getD i []).headI
        bottom := (T.arcs.getD i []).getLastI
        colors := colorsInSegment }))

/-- The worker's persistent state: `LineSegments` (a JS `Map`, modelled as
an insertion-ordered association list) and `LineConnections`. -/
structure WorkerState where
  LineSegments : List (String × LineSegment)
  LineConnections : List LineConnection

/-- `processTopologies`: replaces the worker state with freshly extracted
segments and connections; `none` models the `TypeError` thrown by
`extractLineConnections` on a route with an empty arc list. -/
def processTopologies (T : topojsonExport) : Option WorkerState :=
  match extractLineConnections T with
  | none => none
  | some cs => some { LineSegments := ExtractLineSegments T, LineConnections := cs }

/-! ## Spacer -/

/-- `ScaleSpacing(width, zoom)`: converts a requested pixel line width and
a zoom level into a geographic offset spacing. -/
noncomputable def ScaleSpacing (width zoom : ℝ) : ℝ :=
  let w := max 1 width
  let z := (jsRound (zoom * 100) : ℝ) / 100
  let numerator := 0.025 * w ^ 2 - 0.04 * w + 0.1
  numerator / (2 : ℝ) ^ (z - 10)

/-- The clamp `Math.max(0.00005, Math.min(0.3, RequestedSpacing))` applied
by `renderLines` before any use of the spacing. -/
noncomputable def renderSpacing (RequestedSpacing : ℝ) : ℝ :=
  max 0.00005 (min 0.3 RequestedSpacing)

/-! ## ColorOrderer -/

/-- The luminosity the render code actually computes for a color string:
note the channel substrings are `substring(1, 2)`, `substring(3, 2)` and
`substring(5, 2)` — under JS substring semantics these are one, one and
three hex digits of the string, not the three two-digit channels. -/
noncomputable def luminosity (a : String) : ℝ :=
  0.2126 * ((parseIntHex (jsSubstring a 1 2) : ℝ) / 255) ^ (2.2 : ℝ) +
  0.7152 * ((parseIntHex (jsSubstring a 3 2) : ℝ) / 255) ^ (2.2 : ℝ) +
  0.0722 * ((parseIntHex (jsSubstring a 5 2) : ℝ) / 255) ^ (2.2 : ℝ)

/-- The luminance described by the spec: the three two-hex-digit sRGB
channel values of a `#RRGGBB` string.  This is the refinement reference
for the comparison sort key, to be compared against `luminosity` above. -/
noncomputable def luminositySpec (a : String) : ℝ :=
  0.2126 * ((parseIntHex (jsSubstring a 1 3) : ℝ) / 255) ^ (2.2 : ℝ) +
  0.7152 * ((parseIntHex (jsSubstring a 3 5) : ℝ) / 255) ^ (2.2 : ℝ) +
  0.0722 * ((parseIntHex (jsSubstring a 5 7) : ℝ) / 255) ^ (2.2 : ℝ)

/-- The order induced by the sort comparator
`(a, b) => luminosityA - luminosityB`: `a` may precede `b` iff the
comparator is nonpositive. -/
noncomputable def lumLE (a b : String) : Prop := luminosity a ≤ luminosity b

noncomputable instance : DecidableRel lumLE := fun a b => Real.decidableLE _ _

/-- Same order for the spec's luminance. -/
noncomputable def lumSpecLE (a b : String) : Prop := luminositySpec a ≤ luminositySpec b

noncomputable instance : DecidableRel lumSpecLE := fun a b => Real.decidableLE _ _

/-! ## Geometry

Modelled from the spec: the geometric primitives `length` (turf `length`)
and `sliceAlong` (turf `lineSliceAlong`) come from the external
`@turf/...` packages whose source is not part of this repository.  The
spec describes them as the total length of a polyline and as "slicing the
line between `start` and `end` measured along the line" (section 4.6), so
they are modelled here over exact plane geometry: the distance between
two coordinates is the Euclidean distance (obtained through `ℂ` to reuse
its metric), the length of a polyline is the sum of the lengths of its
edges, and slicing walks the polyline, linearly interpolating the two cut
points along their edges.
-/

/-- A coordinate pair as a complex number, to reuse the Euclidean metric of `ℂ`. -/
noncomputable def toC (p : coordpair) : ℂ := ⟨p.1, p.2⟩

/-- Modelled from the spec: turf `distance` between two coordinates,
modelled as the Euclidean distance of the plane. -/
noncomputable def dist2 (p q : coordpair) : ℝ := dist (toC p) (toC q)

/-- Modelled from the spec: turf `length` of a polyline — the sum of the
distances between consecutive coordinates. -/
noncomputable def lengthOf : List coordpair → ℝ
  | p :: q :: rest => dist2 p q + lengthOf (q :: rest)
  | _ => 0

/-- Linear interpolation between two coordinates. -/
def lerp (p q : coordpair) (t : ℝ) : coordpair :=
  (p.1 + t * (q.1 - p.1), p.2 + t * (q.2 - p.2))

/-- The point at distance `t` along the edge from `p` to `q`, clamped to
the edge (and `p` itself when the edge is degenerate). -/
noncomputable def ptAlong (p q : coordpair) (t : ℝ) : coordpair :=
  if dist2 p q = 0 then p else lerp p q (max 0 (min 1 (t / dist2 p q)))

/-- Modelled from the spec: turf `lineSliceAlong` — the sub-polyline
between distances `s` and `e` measured along the line, both cut points
interpolated along their edges and clamped to the line. -/
noncomputable def sliceAlong : List coordpair → ℝ → ℝ → List coordpair
  | [], _, _ => []
  | [p], _, _ => [p]
  | p :: q :: rest, s, e =>
    if e ≤ dist2 p q then [ptAlong p q s, ptAlong p q e]
    else if s < dist2 p q then
      ptAlong p q s :: sliceAlong (q :: rest) (s - dist2 p q) (e - dist2 p q)
    else sliceAlong (q :: rest) (s - dist2 p q) (e - dist2 p q)

/-! ## Clipping policy -/

/-- `ClipLine(line, clipdist)`: return the line unmodified when it is too
short to trim safely, otherwise slice it between `min(len/3, clipdist)`
and `max(2·len/3, len − clipdist)` along the line. -/
noncomputable def ClipLine (line : List coordpair) (clipdist : ℝ) : List coordpair :=
  let LineLength := lengthOf line
  let MinLineLength := LineLength / 3
  if MinLineLength ≤ clipdist ∨ line.length < 4 then line
  else sliceAlong line (min MinLineLength clipdist)
    (max (MinLineLength * 2) (LineLength - clipdist))

/-! ## Render pipeline

`renderLines` also calls three external geometry routines whose behaviour
none of the verified claims depends on: turf `booleanIntersects` (the
viewport filter), turf `lineOffset` (perpendicular offsetting) and the
`to-smooth` path smoother.  They are parameters of the pipeline, so every
theorem below holds for an arbitrary implementation of them.
-/

/-- The external geometry routines `renderLines` calls. -/
structure GeoPrims where
  booleanIntersects : List coordpair → List coordpair → Bool
  lineOffset : List coordpair → ℝ → List coordpair
  smooth : List coordpair → ℕ → ℝ → List coordpair

/-- `ProcessOffsetLines`: smooth with 2 iterations and factor 0.75 when the
flag is set, else pass the coordinates through. -/
noncomputable def ProcessOffsetLines (gp : GeoPrims) (line : List coordpair)
    (flags_should_smooth : Bool) : List coordpair :=
  if flags_should_smooth then gp.smooth line 2 0.75 else line

/-- JS `Map.prototype.get` on an insertion-ordered association list. -/
def mapGet {α : Type} : List (String × α) → String → Option α
  | [], _ => none
  | e :: rest, k => if e.1 = k then some e.2 else mapGet rest k

/-- JS `Map.prototype.set` on an insertion-ordered association list:
overwrite in place if the key exists, else append. -/
def mapSet {α : Type} (m : List (String × α)) (k : String) (v : α) : List (String × α) :=
  if (mapGet m k).isSome then m.map (fun e => if e.1 = k then (k, v) else e)
  else m ++ [(k, v)]

/-- The two per-render maps: `RenderedColourLine` (color ↦ list of
polylines) and `ColourSegmentsEndpoints` (string key ↦ coordinate). -/
structure RenderAcc where
  rcl : List (String × List (List coordpair))
  eps : List (String × coordpair)

/-- The body of the inner `for (let i = 0; i < totallines; i++)` loop of
`renderLines`: offset the clipped line, clip the offset twice more,
optionally smooth, record six endpoint-registry entries and append the
processed line to its color's `RenderedColourLine` entry. -/
noncomputable def innerStep (gp : GeoPrims) (spacing : ℝ) (flags_should_smooth : Bool)
    (segment_id : String) (line_clipped : List coordpair) (linespace : ℝ)
    (totallines : ℕ) (acc : RenderAcc) (ic : ℕ × String) : RenderAcc :=
  let i := ic.1
  let color := ic.2
  let lineoffset := (i : ℝ) * linespace - ((totallines : ℝ) - 1) * linespace / 2
  let line_clipped_offset := gp.lineOffset line_clipped lineoffset
  let line_clipped_ofset_buffer := ClipLine line_clipped_offset (max 0.049 (spacing * 5) * 2)
  let line_clipped_ofset_invasive := ClipLine line_clipped_ofset_buffer (max 0.049 (spacing * 5) * 2)
  let line_processed := ProcessOffsetLines gp line_clipped_ofset_invasive flags_should_smooth
  let eps1 := mapSet acc.eps (segment_id ++ ":" ++ color ++ ":top") line_processed.headI
  let eps2 := mapSet eps1 (segment_id ++ ":" ++ color ++ ":top:invasive") line_clipped_offset.headI
  let eps3 := mapSet eps2 (segment_id ++ ":" ++ color ++ ":top:buffer") line_clipped_ofset_buffer.headI
  let eps4 := mapSet eps3 (segment_id ++ ":" ++ color ++ ":bottom") line_processed.getLastI
  let eps5 := mapSet eps4 (segment_id ++ ":" ++ color ++ ":bottom:invasive") line_clipped_offset.getLastI
  let eps6 := mapSet eps5 (segment_id ++ ":" ++ color ++ ":bottom:buffer") line_clipped_ofset_buffer.getLastI
  let rcl1 := match mapGet acc.rcl color with
    | some existing => mapSet acc.rcl color (existing ++ [line_processed])
    | none => acc.rcl ++ [(color, [line_processed])]
  ⟨rcl1, eps6⟩

/-- The in-place `segment.colors.sort(...)` mutation a render call applies
to a stored segment: segments passing the viewport filter keep their
colors array sorted by the luminosity comparator (the reversed variant is
built from a spread copy and does not affect the stored array). -/
noncomputable def mutateSeg (gp : GeoPrims) (viewbox : List coordpair)
    (e : String × LineSegment) : String × LineSegment :=
  if gp.booleanIntersects viewbox e.2.geometry then
    (e.1, { e.2 with colors := List.insertionSort lumLE e.2.colors })
  else e

/-- The body of the outer `for (const [segment_id, segment] of
this.LineSegments.entries())` loop: skip segments outside the viewport,
otherwise sort the colors, clip the segment's line and run the inner loop
over the (possibly reversed) sorted colors. -/
noncomputable def renderSegmentAcc (gp : GeoPrims) (spacing : ℝ)
    (flags_should_smooth : Bool) (viewbox : List coordpair) (acc : RenderAcc)
    (e : String × LineSegment) : RenderAcc :=
  if gp.booleanIntersects viewbox e.2.geometry then
    let segment := e.2
    let shouldReverseColor :=
      dist2 (0, 0) segment.geometry.headI > dist2 (0, 0) segment.geometry.getLastI
    let colors_sorted_by_luminosity := List.insertionSort lumLE segment.colors
    let colors_sorted :=
      if shouldReverseColor then colors_sorted_by_luminosity.reverse
      else colors_sorted_by_luminosity
    let colors := colors_sorted
    let linespace := spacing * 2
    let totallines := segment.colors.length
    let line_clipped := ClipLine segment.geometry (max 0.0049 (spacing * 5) * 6)
    colors.enum.foldl
      (fun a p => innerStep gp spacing flags_should_smooth e.1 line_clipped linespace totallines a p)
      acc
  else acc

/-- One render step over the whole segment map: thread the accumulator and
collect the (possibly mutated) stored segments. -/
noncomputable def renderFirstLoop (gp : GeoPrims) (spacing : ℝ)
    (flags_should_smooth : Bool) (viewbox : List coordpair)
    (segs : List (String × LineSegment)) : RenderAcc × List (String × LineSegment) :=
  (segs.foldl (fun acc e => renderSegmentAcc gp spacing flags_should_smooth viewbox acc e) ⟨[], []⟩,
    segs.map (fun e => mutateSeg gp viewbox e))

/-- The endpoint-registry key a connection endpoint is looked up under:
`Segment:${id}:${color}:${part}` plus an optional variant suffix. -/
def stitchKey (idp : ℕ × String) (color variant : String) : String :=
  "Segment:" ++ natToDecStr idp.1 ++ ":" ++ color ++ ":" ++ idp.2 ++ variant

/-- The six endpoint-registry lookups of one connection, in chain order:
from actual, from buffer, from invasive, to invasive, to buffer, to actual. -/
def stitchLookups (eps : List (String × coordpair)) (conn : LineConnection) :
    List (Option coordpair) :=
  [mapGet eps (stitchKey conn.from_ conn.color ""),
   mapGet eps (stitchKey conn.from_ conn.color ":buffer"),
   mapGet eps (stitchKey conn.from_ conn.color ":invasive"),
   mapGet eps (stitchKey conn.to_ conn.color ":invasive"),
   mapGet eps (stitchKey conn.to_ conn.color ":buffer"),
   mapGet eps (stitchKey conn.to_ conn.color "")]

/-- One step of the connection-stitching loop.  When every lookup
succeeded the chain is pushed onto `RenderedColourLine.get(color)`; if
that map has no entry for the color, `.get` yields `undefined` and the
`.push` throws — modelled as `none`. -/
noncomputable def stitchConnection (gp : GeoPrims) (flags_should_smooth_coords : Bool)
    (eps : List (String × coordpair)) (rcl : List (String × List (List coordpair)))
    (conn : LineConnection) : Option (List (String × List (List coordpair))) :=
  let coords := stitchLookups eps conn
  if none ∈ coords then some rcl
  else
    match mapGet rcl conn.color with
    | none => none
    | some lines =>
      some (mapSet rcl conn.color (lines ++
        [if flags_should_smooth_coords then gp.smooth coords.reduceOption 7 0.75
         else coords.reduceOption]))

/-- The stitching loop over all connections. -/
noncomputable def stitchLoop (gp : GeoPrims) (flags_should_smooth_coords : Bool)
    (eps : List (String × coordpair)) :
    List (String × List (List coordpair)) → List LineConnection →
    Option (List (String × List (List coordpair)))
  | rcl, [] => some rcl
  | rcl, conn :: rest =>
    match stitchConnection gp flags_should_smooth_coords eps rcl conn with
    | none => none
    | some rcl1 => stitchLoop gp flags_should_smooth_coords eps rcl1 rest

/-- One output feature: `multiLineString(coords, { id: color, stroke: color })`. -/
structure Feature where
  coordinates : List (List coordpair)
  id : String
  stroke : String

/-- The body of `renderLines` after the spacing clamp: run both loops and
assemble one multi-line feature per color.  The first component is `none`
when the stitching loop threw; the second component is the worker state
after the call, reflecting the in-place mutation of the stored segments'
color arrays. -/
noncomputable def renderCore (gp : GeoPrims) (st : WorkerState) (spacing : ℝ)
    (viewbox : List coordpair) : Option (List Feature) × WorkerState :=
  let flags_should_smooth : Bool := decide (spacing < 0.007)
  let flags_should_smooth_coords : Bool := decide (spacing < 0.11)
  let first := renderFirstLoop gp spacing flags_should_smooth viewbox st.LineSegments
  let stitched := stitchLoop gp flags_should_smooth_coords first.1.eps first.1.rcl
    st.LineConnections
  (stitched.map (fun rcl => rcl.map (fun e => Feature.mk e.2 e.1 e.1)),
    { LineSegments := first.2, LineConnections := st.LineConnections })

/-- `renderLines(RequestedSpacing, viewbox)`: clamp the requested spacing
and run the render body on the clamped value. -/
noncomputable def renderLines (gp : GeoPrims) (st : WorkerState)
    (RequestedSpacing : ℝ) (viewbox : List coordpair) :
    Option (List Feature) × WorkerState :=
  renderCore gp st (renderSpacing RequestedSpacing) viewbox

/-- `message_request_render`: derive the spacing from width and zoom and render. -/
noncomputable def message_request_render (gp : GeoPrims) (st : WorkerState)
    (line_width zoom : ℝ) (viewbox : List coordpair) :
    Option (List Feature) × WorkerState :=
  renderLines gp st (ScaleSpacing line_width zoom) viewbox

/-! ## Concrete fixtures for the evaluations below -/

/-- A route that traverses arc 0 only through the reversed reference `-1 = -0-1`. -/
def routeRev : RouteGeometry := { arcs := [-1], stroke := "#FF0000", title := "", agency := "" }

/-- A one-arc topology whose only route references the arc reversed. -/
def topoRev : topojsonExport := { geometries := [routeRev], arcs := [[(0, 0), (1, 1)]] }

/-- A route whose arc-reference list is empty. -/
def routeEmptyArcs : RouteGeometry := { arcs := [], stroke := "#123456", title := "t", agency := "a" }

/-- A topology containing a route with an empty arc-reference list. -/
def topoEmptyArcs : topojsonExport :=
  { geometries := [routeEmptyArcs], arcs := [[(0, 0), (1, 1)]] }

/-- A connection whose endpoint tags are the canonical `"top"`/`"bottom"`
strings — every connection `mkConn` builds is of this shape. -/
def canonConn (c : LineConnection) : Prop :=
  (c.from_.2 = "top" ∨ c.from_.2 = "bottom") ∧ (c.to_.2 = "top" ∨ c.to_.2 = "bottom")

/-- Invariant tying `extractLineConnections`'s two arrays together:
`ConnectionsDedupe` holds exactly the dedup strings of `Connections`. -/
def connKeyed (st : ConnState) : Prop :=
  st.ConnectionsDedupe = st.Connections.map DedupeString

/-- A topology whose single route visits the arc transition `0 → 1` twice. -/
def topoW : topojsonExport :=
  { geometries := [{ arcs := [0, 1, 0, 1], stroke := "#AA0000", title := "", agency := "" }],
    arcs := [[(0, 0), (1, 0)], [(1, 0), (2, 0)]] }

/-- The two connections ingestion of `topoW` must produce. -/
def connsW : List LineConnection :=
  [{ from_ := (0, "bottom"), to_ := (1, "top"), color := "#AA0000" },
   { from_ := (1, "bottom"), to_ := (0, "top"), color := "#AA0000" }]

/-- A 4-vertex unit-spaced horizontal test line. -/
def line4 : List coordpair := [(0, 0), (1, 0), (2, 0), (3, 0)]

/-- A 2-vertex test line. -/
def line2 : List coordpair := [(0, 0), (1, 0)]

/-- Trivial geometry routines for concrete render evaluations: every line
intersects the viewport, offsetting and smoothing pass lines through. -/
def gpId : GeoPrims :=
  { booleanIntersects := fun _ _ => true
    lineOffset := fun l _ => l
    smooth := fun l _ _ => l }

/-- A worker state holding one segment whose colors are stored in the
order white before black. -/
def stWB : WorkerState :=
  { LineSegments := [("Segment:0",
      { geometry := [(0, 0), (1, 0)], top := (0, 0), bottom := (1, 0),
        colors := ["#FFFFFF", "#000000"] })],
    LineConnections := [] }

/-- A concrete connection between segments 0 and 1. -/
def connW9 : LineConnection := { from_ := (0, "bottom"), to_ := (1, "top"), color := "#FF0000" }

/-- An endpoint registry holding all six entries `connW9` looks up. -/
def epsW9 : List (String × coordpair) :=
  [("Segment:0:#FF0000:bottom", (0, 0)), ("Segment:0:#FF0000:bottom:buffer", (0.1, 0)),
   ("Segment:0:#FF0000:bottom:invasive", (0.2, 0)), ("Segment:1:#FF0000:top:invasive", (0.3, 0)),
   ("Segment:1:#FF0000:top:buffer", (0.4, 0)), ("Segment:1:#FF0000:top", (0.5, 0))]

/-- A rendered-lines map with an (empty) entry for `connW9`'s color. -/
def rclW9 : List (String × List (List coordpair)) := [("#FF0000", [])]

/-- Invariant of the first render loop: every endpoint-registry key was
written as `Segment:<i>:<color>:<part>[:variant]` — with the segment-map
key shape produced by ingestion — and its color already owns a
rendered-lines entry. -/
def epsInv (eps : List (String × coordpair))
    (rcl : List (String × List (List coordpair))) : Prop :=
  ∀ kv ∈ eps, ∃ i c p v,
    kv.1 = "Segment:" ++ natToDecStr i ++ ":" ++ c ++ ":" ++ p ++ v ∧
    (p = "top" ∨ p = "bottom") ∧ (v = "" ∨ v = ":invasive" ∨ v = ":buffer") ∧
    (mapGet rcl c).isSome

/-! # Theorems -/

/-- C1: the claim states that arc `i`'s Segment collects the colors of
every route whose reference list contains the arc in either sign.  The
code only ever tests `line.arcs.includes(i)` because the `i < 0` branch
of its conditional is dead (the loop index is non-negative), so a route
that traverses the arc only through the reversed reference `-i-1`
contributes no color: on a topology whose single route references arc 0
as `-1`, the produced Segment has an empty colors set even though the
route's reference list contains `-0-1`. -/
theorem extract_segments_drop_reversed_only_colors :
    (ExtractLineSegments topoRev).map (fun e => (e.1, e.2.colors)) = [("Segment:0", [])] ∧
    routeRev.arcs.contains (-(0 : ℤ) - 1) = true := by
  constructor
  · rfl
  · decide

/-- C3: the claim states that ingestion never throws, even for a route
whose arc-reference list is empty.  But `extractLineConnections` folds
each route's arcs with `Array.prototype.reduce` and no initial value,
which throws a `TypeError` on an empty array, so `processTopologies`
throws on such a topology (modelled as `none`). -/
theorem processTopologies_throws_on_empty_route_arcs :
    processTopologies topoEmptyArcs = none := rfl

/-- Helper: the numerator `0.025·w² − 0.04·w + 0.1` is positive once `w`
has been clamped to `max 1 width`. -/
theorem spacer_numerator_pos (width : ℝ) :
    0 < 0.025 * max 1 width ^ 2 - 0.04 * max 1 width + 0.1 := by
  have h : (1 : ℝ) ≤ max 1 width := le_max_left 1 width
  nlinarith [sq_nonneg (max 1 width - 0.8)]

/-- C6 counterexample: the claim asserts `Spacer(width, ·)` is strictly
decreasing in zoom for every pair `zoom1 < zoom2`, but the zoom is first
rounded to two decimal places, so `zoom1 = 0` and `zoom2 = 1/1000` round
to the same value and yield equal spacings. -/
theorem spacer_zoom_not_strictly_decreasing :
    (0 : ℝ) < 1 / 1000 ∧ ¬ ScaleSpacing 1 0 > ScaleSpacing 1 (1 / 1000) := by
  have h : ScaleSpacing 1 (1 / 1000) = ScaleSpacing 1 0 := by
    unfold ScaleSpacing jsRound
    norm_num
  exact ⟨by norm_num, by rw [h]; exact lt_irrefl _⟩

/-- C6 (amended): `Spacer(width, zoom)` is monotonically non-decreasing in
width for fixed zoom for all `width ≥ 0.8`, and antitone in zoom for
fixed width — strictly decreasing whenever the two zooms still differ
after rounding to two decimal places. -/
theorem spacer_monotonicity (w1 w2 width zoom1 zoom2 : ℝ) :
    (0.8 ≤ w1 → w1 ≤ w2 → ∀ zoom, ScaleSpacing w1 zoom ≤ ScaleSpacing w2 zoom) ∧
    (zoom1 ≤ zoom2 → ScaleSpacing width zoom2 ≤ ScaleSpacing width zoom1) ∧
    (jsRound (zoom1 * 100) < jsRound (zoom2 * 100) →
      ScaleSpacing width zoom2 < ScaleSpacing width zoom1) := by
  refine ⟨fun _ h12 zoom => ?_, fun hz => ?_, fun hz => ?_⟩
  · unfold ScaleSpacing
    have hm : max 1 w1 ≤ max 1 w2 := max_le_max le_rfl h12
    have h1 : (1 : ℝ) ≤ max 1 w1 := le_max_left 1 w1
    have hD : (0 : ℝ) < (2 : ℝ) ^ (((jsRound (zoom * 100) : ℝ)) / 100 - 10) :=
      Real.rpow_pos_of_pos two_pos _
    refine (div_le_div_iff_of_pos_right hD).mpr ?_
    nlinarith
  · unfold ScaleSpacing
    have hr : jsRound (zoom1 * 100) ≤ jsRound (zoom2 * 100) :=
      Int.floor_le_floor (by linarith)
    have hcast : ((jsRound (zoom1 * 100) : ℝ)) ≤ (jsRound (zoom2 * 100) : ℝ) := by
      exact_mod_cast hr
    have hexp : ((jsRound (zoom1 * 100) : ℝ)) / 100 - 10 ≤
        ((jsRound (zoom2 * 100) : ℝ)) / 100 - 10 := by linarith
    have hpow : (2 : ℝ) ^ (((jsRound (zoom1 * 100) : ℝ)) / 100 - 10) ≤
        (2 : ℝ) ^ (((jsRound (zoom2 * 100) : ℝ)) / 100 - 10) :=
      (Real.rpow_le_rpow_left_iff one_lt_two).mpr hexp
    exact div_le_div_of_le_left (le_of_lt (spacer_numerator_pos width))
      (Real.rpow_pos_of_pos two_pos _) hpow
  · unfold ScaleSpacing
    have hcast : ((jsRound (zoom1 * 100) : ℝ)) < (jsRound (zoom2 * 100) : ℝ) := by
      exact_mod_cast hz
    have hexp : ((jsRound (zoom1 * 100) : ℝ)) / 100 - 10 <
        ((jsRound (zoom2 * 100) : ℝ)) / 100 - 10 := by linarith
    have hpow : (2 : ℝ) ^ (((jsRound (zoom1 * 100) : ℝ)) / 100 - 10) <
        (2 : ℝ) ^ (((jsRound (zoom2 * 100) : ℝ)) / 100 - 10) :=
      (Real.rpow_lt_rpow_left_iff one_lt_two).mpr hexp
    exact div_lt_div_of_pos_left (spacer_numerator_pos width)
      (Real.rpow_pos_of_pos two_pos _) hpow

/-- Witness for C6 at concrete inputs. -/
theorem spacer_monotonicity_witness :
    ((0.8 : ℝ) ≤ 1 ∧ (1 : ℝ) ≤ 2 ∧ ScaleSpacing 1 15 ≤ ScaleSpacing 2 15) ∧
    (jsRound ((0 : ℝ) * 100) < jsRound ((1 : ℝ) * 100) ∧
      ScaleSpacing 1 1 < ScaleSpacing 1 0) := by
  have hz : jsRound ((0 : ℝ) * 100) < jsRound ((1 : ℝ) * 100) := by
    unfold jsRound; norm_num
  exact ⟨⟨by norm_num, by norm_num,
      (spacer_monotonicity 1 2 1 0 1).1 (by norm_num) (by norm_num) 15⟩,
    ⟨hz, (spacer_monotonicity 1 2 1 0 1).2.2 hz⟩⟩

/-- C8: the spacing used by the render pipeline for a render request with
the given width and zoom is `clamp(numerator / 2^(z−10), 0.00005, 0.3)`
with `w = max(1, width)`, `z` the zoom rounded to two decimal places and
`numerator = 0.025·w² − 0.04·w + 0.1`; the clamp is applied by the render
caller (`renderLines`) before any use of the spacing. -/
theorem render_spacing_formula (width zoom : ℝ) :
    (∀ gp st viewbox, message_request_render gp st width zoom viewbox =
      renderCore gp st (renderSpacing (ScaleSpacing width zoom)) viewbox) ∧
    renderSpacing (ScaleSpacing width zoom) =
      max 0.00005 (min 0.3 ((0.025 * max 1 width ^ 2 - 0.04 * max 1 width + 0.1) /
        (2 : ℝ) ^ (((⌊zoom * 100 + 1 / 2⌋ : ℤ) : ℝ) / 100 - 10))) :=
  ⟨fun _ _ _ => rfl, rfl⟩

/-- Helper: the code's luminosity of pure green is below that of pure red,
because `substring(5, 2)` swaps to `substring(2, 5)` and reads three hex
digits — `"0FF" = 255` for green but `"F00" = 3840` for red, so red's
blue term alone exceeds green's entire luminosity. -/
theorem luminosity_green_lt_red : luminosity "#00FF00" < luminosity "#FF0000" := by
  have g1 : parseIntHex (jsSubstring "#00FF00" 1 2) = 0 := by decide
  have g2 : parseIntHex (jsSubstring "#00FF00" 3 2) = 0 := by decide
  have g3 : parseIntHex (jsSubstring "#00FF00" 5 2) = 255 := by decide
  have r1 : parseIntHex (jsSubstring "#FF0000" 1 2) = 15 := by decide
  have r2 : parseIntHex (jsSubstring "#FF0000" 3 2) = 15 := by decide
  have r3 : parseIntHex (jsSubstring "#FF0000" 5 2) = 3840 := by decide
  unfold luminosity
  rw [g1, g2, g3, r1, r2, r3]
  have hz : ((0 : ℕ) : ℝ) / 255 = 0 := by norm_num
  have h0 : ((0 : ℝ)) ^ (2.2 : ℝ) = 0 := Real.zero_rpow (by norm_num)
  have h1 : (((255 : ℕ) : ℝ) / 255) ^ (2.2 : ℝ) = 1 := by
    norm_num
  have hb : (1 : ℝ) < (((3840 : ℕ) : ℝ) / 255) ^ (2.2 : ℝ) :=
    (Real.one_lt_rpow_iff_of_pos (by norm_num)).mpr (Or.inl ⟨by norm_num, by norm_num⟩)
  have hr1 : (0 : ℝ) ≤ (((15 : ℕ) : ℝ) / 255) ^ (2.2 : ℝ) :=
    Real.rpow_nonneg (by norm_num) _
  rw [hz, h0, h1]
  nlinarith

/-- Helper: under the spec's two-hex-digit channel parsing, pure red's
luminance `0.2126` is below pure green's `0.7152`. -/
theorem luminositySpec_red_lt_green :
    luminositySpec "#FF0000" < luminositySpec "#00FF00" := by
  have r1 : parseIntHex (jsSubstring "#FF0000" 1 3) = 255 := by decide
  have r2 : parseIntHex (jsSubstring "#FF0000" 3 5) = 0 := by decide
  have r3 : parseIntHex (jsSubstring "#FF0000" 5 7) = 0 := by decide
  have g1 : parseIntHex (jsSubstring "#00FF00" 1 3) = 0 := by decide
  have g2 : parseIntHex (jsSubstring "#00FF00" 3 5) = 255 := by decide
  have g3 : parseIntHex (jsSubstring "#00FF00" 5 7) = 0 := by decide
  unfold luminositySpec
  rw [r1, r2, r3, g1, g2, g3]
  have hz : ((0 : ℕ) : ℝ) / 255 = 0 := by norm_num
  have h0 : ((0 : ℝ)) ^ (2.2 : ℝ) = 0 := Real.zero_rpow (by norm_num)
  have h1 : (((255 : ℕ) : ℝ) / 255) ^ (2.2 : ℝ) = 1 := by norm_num
  rw [hz, h0, h1]
  norm_num

/-- C5: the claim states colors are stacked ascending by the luminance of
the three two-hex-digit channels.  The code parses `substring(1, 2)`,
`substring(3, 2)` and `substring(5, 2)` instead — one, one and three hex
digits — so on the segment colors `["#FF0000", "#00FF00"]` the code's
comparator sorts green before red while the claimed formula sorts red
before green. -/
theorem color_sort_substring_divergence :
    List.insertionSort lumLE ["#FF0000", "#00FF00"] = ["#00FF00", "#FF0000"] ∧
    List.insertionSort lumSpecLE ["#FF0000", "#00FF00"] = ["#FF0000", "#00FF00"] := by
  constructor
  · have h : ¬ lumLE "#FF0000" "#00FF00" := not_le.mpr luminosity_green_lt_red
    simp [List.insertionSort, List.orderedInsert, if_neg h]
  · have h : lumSpecLE "#FF0000" "#00FF00" := le_of_lt luminositySpec_red_lt_green
    simp [List.insertionSort, List.orderedInsert, if_pos h]

/-! ## String-key lemmas

The worker joins structured keys into flat strings (`join(':')` dedup
keys, `Segment:id:color:part:variant` endpoint keys).  The lemmas below
recover the components from such a string: a colon-separated field can be
peeled off from the left or from the right when it contains no colon
itself. -/

/-- Peeling the first colon-separated field: if neither `a` nor `c`
contains a colon, `a ++ ':' :: b = c ++ ':' :: d` forces `a = c`, `b = d`. -/
theorem colon_peel_left {a c : List Char} (b d : List Char) (ha : ':' ∉ a) (hc : ':' ∉ c)
    (h : a ++ ':' :: b = c ++ ':' :: d) : a = c ∧ b = d := by
  induction a generalizing c with
  | nil =>
    cases c with
    | nil => simpa using h
    | cons y ys =>
      rw [List.nil_append, List.cons_append] at h
      obtain ⟨hy, -⟩ := List.cons.inj h
      exact absurd (hy ▸ List.mem_cons_self y ys) hc
  | cons x xs ih =>
    cases c with
    | nil =>
      rw [List.nil_append, List.cons_append] at h
      obtain ⟨hy, -⟩ := List.cons.inj h
      exact absurd (hy ▸ List.mem_cons_self x xs) ha
    | cons y ys =>
      rw [List.cons_append, List.cons_append] at h
      obtain ⟨hy, ht⟩ := List.cons.inj h
      obtain ⟨h1, h2⟩ := ih (fun hm => ha (List.mem_cons_of_mem x hm))
        (fun hm => hc (List.mem_cons_of_mem y hm)) ht
      exact ⟨by rw [hy, h1], h2⟩

/-- Peeling the last colon-separated field: if neither `b` nor `d`
contains a colon, `a ++ ':' :: b = c ++ ':' :: d` forces `a = c`, `b = d`. -/
theorem colon_peel_right {b d : List Char} (a c : List Char) (hb : ':' ∉ b) (hd : ':' ∉ d)
    (h : a ++ ':' :: b = c ++ ':' :: d) : a = c ∧ b = d := by
  have h2 : b.reverse ++ ':' :: a.reverse = d.reverse ++ ':' :: c.reverse := by
    have := congrArg List.reverse h
    simpa [List.reverse_append, List.append_assoc] using this
  obtain ⟨h3, h4⟩ := colon_peel_left _ _ (by simpa using hb) (by simpa using hd) h2
  exact ⟨List.reverse_injective h4, List.reverse_injective h3⟩

/-- Strings with equal character lists are equal. -/
theorem str_data_inj {s t : String} (h : s.data = t.data) : s = t := by
  cases s; cases t; exact congrArg String.mk (by simpa using h)

/-- The character data of `a ++ ":" ++ b`. -/
theorem data_append_colon (a b : String) : (a ++ ":" ++ b).data = a.data ++ ':' :: b.data := by
  simp [String.data_append]

/-- Peeling the last field at the `String` level. -/
theorem str_colon_peel_right {b d : String} (a c : String) (hb : ':' ∉ b.data)
    (hd : ':' ∉ d.data) (h : a ++ ":" ++ b = c ++ ":" ++ d) : a = c ∧ b = d := by
  have h2 := congrArg String.data h
  rw [data_append_colon, data_append_colon] at h2
  obtain ⟨h3, h4⟩ := colon_peel_right _ _ hb hd h2
  exact ⟨str_data_inj h3, str_data_inj h4⟩

/-! ## Decimal representation lemmas -/

/-- With positive fuel, `toDecAux` never returns the empty list. -/
theorem toDecAux_ne_nil (fuel n : ℕ) : toDecAux (fuel + 1) n ≠ [] := by
  rw [toDecAux]
  split
  · simp
  · simp

/-- Every character `toDecAux` emits is a decimal digit character. -/
theorem toDecAux_digits (fuel : ℕ) : ∀ n, ∀ c ∈ toDecAux fuel n, ∃ d, d < 10 ∧ c = Nat.digitChar d := by
  induction fuel with
  | zero => intro n c hc; simp [toDecAux] at hc
  | succ fuel ih =>
    intro n c hc
    rw [toDecAux] at hc
    by_cases h : n < 10
    · rw [if_pos h] at hc
      simp at hc
      exact ⟨n, h, hc⟩
    · rw [if_neg h] at hc
      rcases List.mem_append.mp hc with h1 | h2
      · exact ih _ c h1
      · simp at h2
        exact ⟨n % 10, Nat.mod_lt n (by norm_num), h2⟩

/-- Decimal digit characters are never a colon. -/
theorem digitChar_ne_colon {d : ℕ} (hd : d < 10) : Nat.digitChar d ≠ ':' := by
  interval_cases d <;> decide

/-- The decimal representation of a natural number contains no colon. -/
theorem natToDecStr_colon_free (n : ℕ) : ':' ∉ (natToDecStr n).data := by
  intro hm
  obtain ⟨d, hd, hc⟩ := toDecAux_digits (n + 1) n ':' hm
  exact digitChar_ne_colon hd hc.symm

/-- `Nat.digitChar` is injective below 10. -/
theorem digitChar_inj {a b : ℕ} (ha : a < 10) (hb : b < 10)
    (h : Nat.digitChar a = Nat.digitChar b) : a = b := by
  interval_cases a <;> interval_cases b <;> first | rfl | exact absurd h (by decide)

/-- `toDecAux` is injective in the number once the fuel is sufficient. -/
theorem toDecAux_inj : ∀ f1 f2 n m, n < f1 → m < f2 →
    toDecAux f1 n = toDecAux f2 m → n = m := by
  intro f1
  induction f1 with
  | zero => intro f2 n m hn; exact absurd hn (by omega)
  | succ f1 ih =>
    intro f2 n m hn hm h
    match f2, hm with
    | f2 + 1, hm =>
    rw [toDecAux, toDecAux] at h
    by_cases h1 : n < 10 <;> by_cases h2 : m < 10
    · rw [if_pos h1, if_pos h2] at h
      exact digitChar_inj h1 h2 (by simpa using h)
    · rw [if_pos h1, if_neg h2] at h
      have hne := toDecAux_ne_nil (f2 - 1) (m / 10)
      have hlen := congrArg List.length h
      rcases hx : toDecAux f2 (m / 10) with - | ⟨y, ys⟩
      · have : m / 10 < f2 := by omega
        exact absurd (by rw [show f2 - 1 + 1 = f2 by omega]; exact hx) hne
      · rw [hx] at hlen
        simp at hlen
    · rw [if_neg h1, if_pos h2] at h
      have hne := toDecAux_ne_nil (f1 - 1) (n / 10)
      have hlen := congrArg List.length h
      rcases hx : toDecAux f1 (n / 10) with - | ⟨y, ys⟩
      · have : n / 10 < f1 := by omega
        exact absurd (by rw [show f1 - 1 + 1 = f1 by omega]; exact hx) hne
      · rw [hx] at hlen
        simp at hlen
    · rw [if_neg h1, if_neg h2] at h
      have hd : toDecAux f1 (n / 10) = toDecAux f2 (m / 10) ∧
          Nat.digitChar (n % 10) = Nat.digitChar (m % 10) := by
        constructor
        · have := congrArg List.dropLast h
          simpa using this
        · have := congrArg List.getLast? h
          simpa using this
      have hq : n / 10 = m / 10 :=
        ih f2 (n / 10) (m / 10) (by omega) (by omega) hd.1
      have hr : n % 10 = m % 10 :=
        digitChar_inj (Nat.mod_lt n (by norm_num)) (Nat.mod_lt m (by norm_num)) hd.2
      omega

/-- `String(n)` is injective on natural numbers. -/
theorem natToDecStr_inj {n m : ℕ} (h : natToDecStr n = natToDecStr m) : n = m := by
  have h2 : toDecAux (n + 1) n = toDecAux (m + 1) m := congrArg String.data h
  exact toDecAux_inj (n + 1) (m + 1) n m (Nat.lt_succ_self n) (Nat.lt_succ_self m) h2

/-! ## Connection dedup correctness -/

/-- Canonical endpoint tags contain no colon. -/
theorem part_colon_free {p : String} (h : p = "top" ∨ p = "bottom") : ':' ∉ p.data := by
  rcases h with rfl | rfl <;> decide

/-- The dedup string `[stroke, fromId, fromPart, toId, toPart].join(':')`
determines the connection: no two distinct canonical connections collide,
whatever their color strings contain. -/
theorem dedupeString_inj {c1 c2 : LineConnection} (h1 : canonConn c1) (h2 : canonConn c2)
    (h : DedupeString c1 = DedupeString c2) : c1 = c2 := by
  rcases c1 with ⟨⟨f1, fp1⟩, ⟨t1, tp1⟩, col1⟩
  rcases c2 with ⟨⟨f2, fp2⟩, ⟨t2, tp2⟩, col2⟩
  unfold DedupeString at h
  simp only at h h1 h2
  obtain ⟨hA, hp2⟩ := str_colon_peel_right _ _ (part_colon_free h1.2) (part_colon_free h2.2) h
  obtain ⟨hB, hnd2⟩ := str_colon_peel_right _ _ (natToDecStr_colon_free _)
    (natToDecStr_colon_free _) hA
  obtain ⟨hC, hp1⟩ := str_colon_peel_right _ _ (part_colon_free h1.1) (part_colon_free h2.1) hB
  obtain ⟨hcol, hnd1⟩ := str_colon_peel_right _ _ (natToDecStr_colon_free _)
    (natToDecStr_colon_free _) hC
  simp only [LineConnection.mk.injEq, Prod.mk.injEq]
  exact ⟨⟨natToDecStr_inj hnd1, hp1⟩, ⟨natToDecStr_inj hnd2, hp2⟩, hcol⟩

/-- `addConn` preserves the dedup-array invariant. -/
theorem addConn_keyed {st : ConnState} (c : LineConnection) (h : connKeyed st) :
    connKeyed (addConn st c) := by
  unfold addConn
  split
  · exact h
  · unfold connKeyed at h ⊢
    simp [h]

/-- `addConn` only appends connections. -/
theorem addConn_conns_mono {st : ConnState} (c : LineConnection) :
    st.Connections ⊆ (addConn st c).Connections := by
  unfold addConn
  split
  · exact fun x h => h
  · intro x hx
    exact List.mem_append.mpr (Or.inl hx)

/-- Folding `addConn` only appends connections. -/
theorem foldl_addConn_mono (l : List LineConnection) (st : ConnState) :
    st.Connections ⊆ (l.foldl addConn st).Connections := by
  induction l generalizing st with
  | nil => exact fun x h => h
  | cons c rest ih => exact fun x hx => ih (addConn st c) (addConn_conns_mono c hx)

/-- Folding `addConn` preserves the dedup-array invariant. -/
theorem foldl_addConn_keyed (l : List LineConnection) (st : ConnState) (h : connKeyed st) :
    connKeyed (l.foldl addConn st) := by
  induction l generalizing st with
  | nil => exact h
  | cons c rest ih => exact ih (addConn st c) (addConn_keyed c h)

/-- Every connection in the folded state came from the start state or the input list. -/
theorem foldl_addConn_subset (l : List LineConnection) (st : ConnState) :
    ∀ c ∈ (l.foldl addConn st).Connections, c ∈ st.Connections ∨ c ∈ l := by
  induction l generalizing st with
  | nil => exact fun c hc => Or.inl hc
  | cons x rest ih =>
    intro c hc
    rcases ih (addConn st x) c hc with h1 | h2
    · unfold addConn at h1
      split at h1
      · exact Or.inl h1
      · rcases List.mem_append.mp h1 with h3 | h3
        · exact Or.inl h3
        · exact Or.inr (List.mem_cons.mpr (Or.inl (List.mem_singleton.mp h3)))
    · exact Or.inr (List.mem_cons_of_mem x h2)

/-- `addConn` preserves canonicity of all stored connections. -/
theorem addConn_canon {st : ConnState} {x : LineConnection} (hst : ∀ c ∈ st.Connections, canonConn c)
    (hx : canonConn x) : ∀ c ∈ (addConn st x).Connections, canonConn c := by
  unfold addConn
  split
  · exact hst
  · intro c hc
    rcases List.mem_append.mp hc with h3 | h3
    · exact hst c h3
    · exact (List.mem_singleton.mp h3) ▸ hx

/-- Every input connection ends up in the folded state: the dedup test can
only drop a connection in favor of an identical one already stored. -/
theorem foldl_addConn_mem (l : List LineConnection) (st : ConnState)
    (hkey : connKeyed st) (hcanonSt : ∀ c ∈ st.Connections, canonConn c)
    (hcanonL : ∀ c ∈ l, canonConn c) :
    ∀ c ∈ l, c ∈ (l.foldl addConn st).Connections := by
  induction l generalizing st with
  | nil => simp
  | cons x rest ih =>
    intro c hc
    rcases List.mem_cons.mp hc with rfl | hrest
    · have hx : c ∈ (addConn st c).Connections := by
        unfold addConn
        split
        · rename_i hmem
          rw [hkey] at hmem
          obtain ⟨c2, hc2, he⟩ := List.mem_map.mp hmem
          exact dedupeString_inj (hcanonSt c2 hc2) (hcanonL c (List.mem_cons_self c rest)) he ▸ hc2
        · exact List.mem_append.mpr (Or.inr (List.mem_singleton.mpr rfl))
      exact foldl_addConn_mono rest _ hx
    · exact ih (addConn st x) (addConn_keyed x hkey)
        (addConn_canon hcanonSt (hcanonL x (List.mem_cons_self x rest)))
        (fun c2 h2 => hcanonL c2 (List.mem_cons_of_mem x h2)) c hrest

/-- The folded connection list has pairwise-distinct dedup strings. -/
theorem foldl_addConn_nodup (l : List LineConnection) (st : ConnState)
    (hkey : connKeyed st) (hnd : (st.Connections.map DedupeString).Nodup) :
    (((l.foldl addConn st).Connections.map DedupeString)).Nodup := by
  induction l generalizing st with
  | nil => exact hnd
  | cons x rest ih =>
    refine ih (addConn st x) (addConn_keyed x hkey) ?_
    unfold addConn
    split
    · exact hnd
    · rename_i hmem
      rw [hkey] at hmem
      simp only [List.map_append, List.map_cons, List.map_nil]
      rw [List.nodup_append]
      exact ⟨hnd, List.nodup_singleton _, by
        intro a ha hb
        rw [List.mem_singleton.mp hb] at ha
        exact hmem ha⟩

/-- C2: ingestion of every topology whose routes are all nonempty yields
exactly the connections derived from the adjacent pairs of each route's
arc-reference list (unsigned ids, bottom/top exit and entry endpoints per
the sign of the reference, route color), with no two connections sharing
the tuple (color, fromId, fromTag, toId, toTag) — duplicate transitions
produce a single `Connection`. -/
theorem extract_connections_correct (T : topojsonExport) (conns : List LineConnection)
    (h : extractLineConnections T = some conns) :
    (∀ c, c ∈ conns ↔
      ∃ g ∈ T.geometries, ∃ pr ∈ adjPairs g.arcs, c = mkConn g.stroke pr.1 pr.2) ∧
    conns.Nodup := by
  unfold extractLineConnections at h
  split at h
  · exact absurd h (by simp)
  · replace h := (Option.some.inj h).symm
    have hcanonL : ∀ c ∈ T.geometries.flatMap routeConns, canonConn c := by
      intro c hc
      simp only [List.mem_flatMap, routeConns, List.mem_map] at hc
      obtain ⟨g, -, pr, -, he⟩ := hc
      rw [← he]
      unfold canonConn mkConn
      constructor
      · dsimp only
        split
        · exact Or.inl rfl
        · exact Or.inr rfl
      · dsimp only
        split
        · exact Or.inr rfl
        · exact Or.inl rfl
    have hmemiff : ∀ c, c ∈ conns ↔ c ∈ T.geometries.flatMap routeConns := by
      intro c
      constructor
      · intro hc
        rw [h] at hc
        exact (foldl_addConn_subset _ ⟨[], []⟩ c hc).resolve_left (by simp)
      · intro hc
        rw [h]
        exact foldl_addConn_mem _ ⟨[], []⟩ rfl (by simp) hcanonL c hc
    constructor
    · intro c
      rw [hmemiff c]
      simp only [List.mem_flatMap, routeConns, List.mem_map]
      constructor
      · rintro ⟨g, hg, pr, hpr, he⟩
        exact ⟨g, hg, pr, hpr, he.symm⟩
      · rintro ⟨g, hg, pr, hpr, he⟩
        exact ⟨g, hg, pr, hpr, he.symm⟩
    · rw [h]
      exact (foldl_addConn_nodup _ ⟨[], []⟩ rfl (by simp)).of_map

/-- Witness for C2 at a concrete topology with a duplicated transition. -/
theorem extract_connections_correct_witness :
    extractLineConnections topoW = some connsW ∧
    ((∀ c, c ∈ connsW ↔
        ∃ g ∈ topoW.geometries, ∃ pr ∈ adjPairs g.arcs, c = mkConn g.stroke pr.1 pr.2) ∧
      connsW.Nodup) := by
  have h : extractLineConnections topoW = some connsW := by decide
  exact ⟨h, extract_connections_correct topoW connsW h⟩

/-! ## Geometry lemmas -/

theorem dist2_nonneg (p q : coordpair) : 0 ≤ dist2 p q := dist_nonneg

theorem dist2_self (p : coordpair) : dist2 p p = 0 := dist_self _

theorem dist2_comm (p q : coordpair) : dist2 p q = dist2 q p := dist_comm _ _

theorem dist2_triangle (p q r : coordpair) : dist2 p r ≤ dist2 p q + dist2 q r :=
  dist_triangle _ _ _

theorem lengthOf_nil : lengthOf [] = 0 := rfl

theorem lengthOf_single (p : coordpair) : lengthOf [p] = 0 := rfl

theorem lengthOf_cons_cons (p q : coordpair) (rest : List coordpair) :
    lengthOf (p :: q :: rest) = dist2 p q + lengthOf (q :: rest) := rfl

theorem lengthOf_nonneg (l : List coordpair) : 0 ≤ lengthOf l := by
  induction l with
  | nil => simp [lengthOf_nil]
  | cons p rest ih =>
    cases rest with
    | nil => simp [lengthOf_single]
    | cons q rest2 =>
      rw [lengthOf_cons_cons]
      exact add_nonneg (dist2_nonneg p q) ih

theorem toC_lerp (p q : coordpair) (t : ℝ) :
    toC (lerp p q t) = toC p + (t : ℂ) * (toC q - toC p) := by
  unfold toC lerp
  apply Complex.ext <;> simp <;> ring

theorem dist2_lerp_lerp (p q : coordpair) (a b : ℝ) :
    dist2 (lerp p q a) (lerp p q b) = |a - b| * dist2 p q := by
  unfold dist2
  rw [Complex.dist_eq, Complex.dist_eq, toC_lerp, toC_lerp]
  have h : toC p + (a : ℂ) * (toC q - toC p) - (toC p + (b : ℂ) * (toC q - toC p)) =
      (((a - b : ℝ)) : ℂ) * (toC q - toC p) := by
    push_cast
    ring
  rw [h, map_mul, Complex.abs_ofReal]
  have h2 : Complex.abs (toC q - toC p) = Complex.abs (toC p - toC q) := by
    rw [← Complex.abs.map_neg]
    ring_nf
  rw [h2]

theorem lerp_zero (p q : coordpair) : lerp p q 0 = p := by
  unfold lerp
  simp

theorem lerp_one (p q : coordpair) : lerp p q 1 = q := by
  unfold lerp
  have h1 : p.1 + 1 * (q.1 - p.1) = q.1 := by ring
  have h2 : p.2 + 1 * (q.2 - p.2) = q.2 := by ring
  rw [h1, h2]

/-- The clamped interpolation parameter of `ptAlong`. -/
theorem clamp_nonneg (x : ℝ) : 0 ≤ max 0 (min 1 x) := le_max_left 0 _

theorem clamp_le_one (x : ℝ) : max 0 (min 1 x) ≤ 1 :=
  max_le zero_le_one (min_le_left 1 x)

theorem clamp_mono {x y : ℝ} (h : x ≤ y) : max 0 (min 1 x) ≤ max 0 (min 1 y) :=
  max_le_max le_rfl (min_le_min le_rfl h)

theorem dist2_ptAlong_left (p q : coordpair) (t : ℝ) :
    dist2 p (ptAlong p q t) = max 0 (min 1 (t / dist2 p q)) * dist2 p q := by
  unfold ptAlong
  split
  · rename_i h
    rw [h, mul_zero, dist2_self]
  · have key := dist2_lerp_lerp p q 0 (max 0 (min 1 (t / dist2 p q)))
    rw [lerp_zero] at key
    rw [key, abs_sub_comm, sub_zero, abs_of_nonneg (clamp_nonneg _)]

theorem dist2_ptAlong_right (p q : coordpair) (t : ℝ) :
    dist2 (ptAlong p q t) q = (1 - max 0 (min 1 (t / dist2 p q))) * dist2 p q := by
  unfold ptAlong
  split
  · rename_i h
    rw [h, mul_zero]
  · have key := dist2_lerp_lerp p q (max 0 (min 1 (t / dist2 p q))) 1
    rw [lerp_one] at key
    rw [key, abs_sub_comm,
      abs_of_nonneg (by linarith [clamp_le_one (t / dist2 p q)])]

theorem dist2_ptAlong_ptAlong (p q : coordpair) (a b : ℝ) :
    dist2 (ptAlong p q a) (ptAlong p q b) =
      |max 0 (min 1 (a / dist2 p q)) - max 0 (min 1 (b / dist2 p q))| * dist2 p q := by
  unfold ptAlong
  split
  · rename_i h
    rw [dist2_self, h, mul_zero]
  · rw [dist2_lerp_lerp]

theorem sliceAlong_nil (s e : ℝ) : sliceAlong [] s e = [] := rfl

theorem sliceAlong_single (p : coordpair) (s e : ℝ) : sliceAlong [p] s e = [p] := rfl

theorem sliceAlong_cons (p q : coordpair) (rest : List coordpair) (s e : ℝ) :
    sliceAlong (p :: q :: rest) s e =
      if e ≤ dist2 p q then [ptAlong p q s, ptAlong p q e]
      else if s < dist2 p q then
        ptAlong p q s :: sliceAlong (q :: rest) (s - dist2 p q) (e - dist2 p q)
      else sliceAlong (q :: rest) (s - dist2 p q) (e - dist2 p q) := rfl

/-- Slicing a nonempty polyline yields a nonempty polyline. -/
theorem sliceAlong_ne_nil (l : List coordpair) : ∀ s e : ℝ, l ≠ [] → sliceAlong l s e ≠ [] := by
  induction l with
  | nil => intro s e h; exact absurd rfl h
  | cons p rest ih =>
    intro s e _
    cases rest with
    | nil => simp [sliceAlong_single]
    | cons q rest2 =>
      rw [sliceAlong_cons]
      split
      · simp
      · split
        · simp
        · exact ih _ _ (by simp)

/-- Key estimate: the distance from the line's first vertex to the slice's
first vertex plus the length of the slice is at most the line's length. -/
theorem sliceAlong_head_length (l : List coordpair) : ∀ s e : ℝ, s ≤ e → l ≠ [] →
    dist2 l.headI (sliceAlong l s e).headI + lengthOf (sliceAlong l s e) ≤ lengthOf l := by
  induction l with
  | nil => intro s e _ h; exact absurd rfl h
  | cons p rest ih =>
    intro s e hse _
    cases rest with
    | nil =>
      simp [sliceAlong_single, lengthOf_single, dist2_self]
    | cons q rest2 =>
      rw [sliceAlong_cons, lengthOf_cons_cons]
      split
      · -- both cut points on the first edge
        simp only [List.headI]
        rw [show lengthOf [ptAlong p q s, ptAlong p q e] =
            dist2 (ptAlong p q s) (ptAlong p q e) + 0 from rfl]
        rw [dist2_ptAlong_left, dist2_ptAlong_ptAlong]
        have hd := dist2_nonneg p q
        have hce := clamp_le_one (e / dist2 p q)
        have hmono : max 0 (min 1 (s / dist2 p q)) ≤ max 0 (min 1 (e / dist2 p q)) := by
          rcases eq_or_lt_of_le hd with h | h
          · rw [← h]
            simp
          · exact clamp_mono ((div_le_div_iff_of_pos_right h).mpr hse)
        rw [abs_of_nonpos (sub_nonpos.mpr hmono)]
        have hid : max 0 (min 1 (s / dist2 p q)) * dist2 p q +
            (-(max 0 (min 1 (s / dist2 p q)) - max 0 (min 1 (e / dist2 p q))) * dist2 p q + 0) =
            max 0 (min 1 (e / dist2 p q)) * dist2 p q := by ring
        rw [hid]
        have hle : max 0 (min 1 (e / dist2 p q)) * dist2 p q ≤ dist2 p q :=
          mul_le_of_le_one_left hd hce
        linarith [lengthOf_nonneg (q :: rest2)]
      · -- the slice extends past the first edge
        have hS := sliceAlong_ne_nil (q :: rest2) (s - dist2 p q) (e - dist2 p q) (by simp)
        obtain ⟨sh, st, hSe⟩ := List.exists_cons_of_ne_nil hS
        have hIH := ih (s - dist2 p q) (e - dist2 p q) (by linarith) (by simp)
        rw [hSe] at hIH ⊢
        simp only [List.headI] at hIH
        split
        · -- the slice starts on the first edge
          simp only [List.headI]
          rw [show lengthOf (ptAlong p q s :: sh :: st) =
              dist2 (ptAlong p q s) sh + lengthOf (sh :: st) from rfl]
          have h1 := dist2_ptAlong_left p q s
          have h2 := dist2_ptAlong_right p q s
          have h3 := dist2_triangle (ptAlong p q s) q sh
          have hid : max 0 (min 1 (s / dist2 p q)) * dist2 p q +
              (1 - max 0 (min 1 (s / dist2 p q))) * dist2 p q = dist2 p q := by ring
          linarith
        · -- the slice starts past the first edge
          simp only [List.headI]
          have h3 := dist2_triangle p q sh
          linarith

/-- Slicing never lengthens a polyline. -/
theorem sliceAlong_length_le (l : List coordpair) (s e : ℝ) (hse : s ≤ e) :
    lengthOf (sliceAlong l s e) ≤ lengthOf l := by
  cases l with
  | nil => rw [sliceAlong_nil]
  | cons p rest =>
    have h := sliceAlong_head_length (p :: rest) s e hse (by simp)
    linarith [dist2_nonneg (p :: rest).headI (sliceAlong (p :: rest) s e).headI]

/-- Slicing keeps at least two vertices as long as the start cut falls
strictly before the end of the line. -/
theorem sliceAlong_two_le (l : List coordpair) : ∀ s e : ℝ, 2 ≤ l.length → s < lengthOf l →
    2 ≤ (sliceAlong l s e).length := by
  induction l with
  | nil => intro s e h2 _; simp at h2
  | cons p rest ih =>
    intro s e h2 hs
    cases rest with
    | nil => simp at h2
    | cons q rest2 =>
      rw [sliceAlong_cons]
      split
      · simp
      · split
        · have hne := sliceAlong_ne_nil (q :: rest2) (s - dist2 p q) (e - dist2 p q) (by simp)
          have hpos := List.length_pos.mpr hne
          simp only [List.length_cons]
          omega
        · rename_i hs3
          cases rest2 with
          | nil =>
            exfalso
            rw [lengthOf_cons_cons, lengthOf_single] at hs
            exact hs3 (by linarith)
          | cons r rest3 =>
            apply ih (s - dist2 p q) (e - dist2 p q) (by simp)
            rw [lengthOf_cons_cons] at hs
            linarith

theorem dist2_horizontal (a c b : ℝ) : dist2 (a, b) (c, b) = |a - c| := by
  unfold dist2
  rw [Complex.dist_eq]
  have h : toC (a, b) - toC (c, b) = ((a - c : ℝ) : ℂ) := by
    apply Complex.ext <;> simp [toC]
  rw [h, Complex.abs_ofReal]

theorem lengthOf_line4 : lengthOf line4 = 3 := by
  unfold line4
  rw [lengthOf_cons_cons, lengthOf_cons_cons, lengthOf_cons_cons, lengthOf_single,
    dist2_horizontal, dist2_horizontal, dist2_horizontal]
  norm_num

/-- C7: for every line and clip distance `d`, `ClipLine` returns the input
unmodified when the line has fewer than 4 vertices or `len/3 ≤ d`, and
otherwise returns the slice of the line between `min(len/3, d)` and
`max(2·len/3, len − d)` measured along the line, which is never longer
than the input and never has fewer than 2 vertices. -/
theorem clipline_correct (line : List coordpair) (clipdist : ℝ) :
    (lengthOf line / 3 ≤ clipdist ∨ line.length < 4 → ClipLine line clipdist = line) ∧
    (¬(lengthOf line / 3 ≤ clipdist ∨ line.length < 4) →
      ClipLine line clipdist =
        sliceAlong line (min (lengthOf line / 3) clipdist)
          (max (lengthOf line / 3 * 2) (lengthOf line - clipdist)) ∧
      lengthOf (ClipLine line clipdist) ≤ lengthOf line ∧
      2 ≤ (ClipLine line clipdist).length) := by
  constructor
  · intro h
    unfold ClipLine
    exact if_pos h
  · intro h
    have heq : ClipLine line clipdist =
        sliceAlong line (min (lengthOf line / 3) clipdist)
          (max (lengthOf line / 3 * 2) (lengthOf line - clipdist)) := by
      unfold ClipLine
      exact if_neg h
    push_neg at h
    obtain ⟨hd, hlen⟩ := h
    have hL := lengthOf_nonneg line
    have hse : min (lengthOf line / 3) clipdist ≤
        max (lengthOf line / 3 * 2) (lengthOf line - clipdist) := by
      have h1 : min (lengthOf line / 3) clipdist ≤ lengthOf line / 3 := min_le_left _ _
      have h2 : lengthOf line / 3 ≤ lengthOf line / 3 * 2 := by linarith
      have h3 : lengthOf line / 3 * 2 ≤
          max (lengthOf line / 3 * 2) (lengthOf line - clipdist) := le_max_left _ _
      linarith
    refine ⟨heq, ?_, ?_⟩
    · rw [heq]
      exact sliceAlong_length_le _ _ _ hse
    · rw [heq]
      apply sliceAlong_two_le
      · omega
      · have h1 : min (lengthOf line / 3) clipdist ≤ clipdist := min_le_right _ _
        linarith

/-- Witness for C7: the trimming branch on a concrete 4-vertex line and
the identity branch on a concrete 2-vertex line. -/
theorem clipline_correct_witness :
    (¬(lengthOf line4 / 3 ≤ 0.5 ∨ line4.length < 4) ∧
      (ClipLine line4 0.5 =
          sliceAlong line4 (min (lengthOf line4 / 3) 0.5)
            (max (lengthOf line4 / 3 * 2) (lengthOf line4 - 0.5)) ∧
        lengthOf (ClipLine line4 0.5) ≤ lengthOf line4 ∧
        2 ≤ (ClipLine line4 0.5).length)) ∧
    ((lengthOf line2 / 3 ≤ 1 ∨ line2.length < 4) ∧ ClipLine line2 1 = line2) := by
  have h4 : ¬(lengthOf line4 / 3 ≤ 0.5 ∨ line4.length < 4) := by
    rw [lengthOf_line4]
    simp only [line4, List.length_cons, List.length_nil]
    norm_num
  have h2 : lengthOf line2 / 3 ≤ 1 ∨ line2.length < 4 := Or.inr (by simp [line2])
  exact ⟨⟨h4, (clipline_correct line4 0.5).2 h4⟩, ⟨h2, (clipline_correct line2 1).1 h2⟩⟩

/-! ## Segment mutation across render calls -/

/-- Helper: the code's luminosity of black is below that of white. -/
theorem luminosity_black_lt_white : luminosity "#000000" < luminosity "#FFFFFF" := by
  have b1 : parseIntHex (jsSubstring "#000000" 1 2) = 0 := by decide
  have b2 : parseIntHex (jsSubstring "#000000" 3 2) = 0 := by decide
  have b3 : parseIntHex (jsSubstring "#000000" 5 2) = 0 := by decide
  have w1 : parseIntHex (jsSubstring "#FFFFFF" 1 2) = 15 := by decide
  have w2 : parseIntHex (jsSubstring "#FFFFFF" 3 2) = 15 := by decide
  have w3 : parseIntHex (jsSubstring "#FFFFFF" 5 2) = 4095 := by decide
  unfold luminosity
  rw [b1, b2, b3, w1, w2, w3]
  have hz : ((0 : ℕ) : ℝ) / 255 = 0 := by norm_num
  have h0 : ((0 : ℝ)) ^ (2.2 : ℝ) = 0 := Real.zero_rpow (by norm_num)
  have hp : (0 : ℝ) < (((15 : ℕ) : ℝ) / 255) ^ (2.2 : ℝ) :=
    Real.rpow_pos_of_pos (by norm_num) _
  have hq : (0 : ℝ) ≤ (((4095 : ℕ) : ℝ) / 255) ^ (2.2 : ℝ) :=
    Real.rpow_nonneg (by norm_num) _
  rw [hz, h0]
  nlinarith

/-- The in-place sort puts black before white. -/
theorem sortWB : List.insertionSort lumLE ["#FFFFFF", "#000000"] = ["#000000", "#FFFFFF"] := by
  have h : ¬ lumLE "#FFFFFF" "#000000" := not_le.mpr luminosity_black_lt_white
  simp [List.insertionSort, List.orderedInsert, if_neg h]

/-- C4 counterexample: the claim says a render call leaves every stored
Segment's colors list unchanged including element order.  But
`segment.colors.sort(...)` sorts the stored array in place, so rendering
the state whose segment stores `["#FFFFFF", "#000000"]` leaves it storing
`["#000000", "#FFFFFF"]`. -/
theorem render_mutates_stored_colors :
    (renderLines gpId stWB 0.2 []).2.LineSegments =
      [("Segment:0",
        { geometry := [(0, 0), (1, 0)], top := (0, 0), bottom := (1, 0),
          colors := ["#000000", "#FFFFFF"] })] ∧
    (["#000000", "#FFFFFF"] : List String) ≠ ["#FFFFFF", "#000000"] := by
  refine ⟨?_, by decide⟩
  have hsnd : (renderLines gpId stWB 0.2 []).2.LineSegments =
      stWB.LineSegments.map (mutateSeg gpId []) := rfl
  rw [hsnd]
  simp only [stWB, List.map, mutateSeg, gpId]
  rw [if_pos trivial, sortWB]

/-- C4 (amended): a render call keeps every stored segment's key,
geometry, top and bottom unchanged and keeps its colors as a set (the
output colors are a permutation of the stored ones); however the
luminosity sort runs in place, so the element order of a stored colors
array may change for segments passing the viewport filter.  Only a
topology load otherwise replaces the segments. -/
theorem render_segment_effect (gp : GeoPrims) (st : WorkerState)
    (RequestedSpacing : ℝ) (viewbox : List coordpair) :
    List.Forall₂ (fun e e2 => e2.1 = e.1 ∧ e2.2.geometry = e.2.geometry ∧
        e2.2.top = e.2.top ∧ e2.2.bottom = e.2.bottom ∧ e.2.colors.Perm e2.2.colors)
      st.LineSegments ((renderLines gp st RequestedSpacing viewbox).2.LineSegments) := by
  have hsnd : (renderLines gp st RequestedSpacing viewbox).2.LineSegments =
      st.LineSegments.map (mutateSeg gp viewbox) := rfl
  rw [hsnd]
  induction st.LineSegments with
  | nil => exact List.Forall₂.nil
  | cons e rest ih =>
    refine List.Forall₂.cons ?_ ih
    unfold mutateSeg
    split
    · exact ⟨rfl, rfl, rfl, rfl, (List.perm_insertionSort lumLE _).symm⟩
    · exact ⟨rfl, rfl, rfl, rfl, List.Perm.refl _⟩

/-! ## Connection stitching -/

/-- C9: during stitching, a connection with any of its six
endpoint-registry lookups absent contributes no polyline at all (the
rendered-lines map is returned untouched); a connection with all six
present appends the ordered chain [from.actual, from.buffer,
from.invasive, to.invasive, to.buffer, to.actual] to its color's rendered
lines, smoothed with 7 iterations and factor 0.75 exactly when
`spacing < 0.11`, and otherwise unsmoothed. -/
theorem stitch_connection_behaviour (gp : GeoPrims) (spacing : ℝ)
    (eps : List (String × coordpair)) (rcl : List (String × List (List coordpair)))
    (conn : LineConnection) :
    (none ∈ stitchLookups eps conn →
      stitchConnection gp (decide (spacing < 0.11)) eps rcl conn = some rcl) ∧
    (none ∉ stitchLookups eps conn → ∀ lines, mapGet rcl conn.color = some lines →
      stitchConnection gp (decide (spacing < 0.11)) eps rcl conn =
        some (mapSet rcl conn.color (lines ++
          [if spacing < 0.11 then gp.smooth (stitchLookups eps conn).reduceOption 7 0.75
           else (stitchLookups eps conn).reduceOption]))) := by
  constructor
  · intro h
    unfold stitchConnection
    rw [if_pos h]
  · intro h lines hl
    unfold stitchConnection
    rw [if_neg h, hl]
    simp

/-- Witness for C9 at a concrete registry, map and connection. -/
theorem stitch_connection_behaviour_witness :
    none ∉ stitchLookups epsW9 connW9 ∧ mapGet rclW9 connW9.color = some [] ∧
    stitchConnection gpId (decide ((0.2 : ℝ) < 0.11)) epsW9 rclW9 connW9 =
      some (mapSet rclW9 connW9.color ([] ++
        [if (0.2 : ℝ) < 0.11 then gpId.smooth (stitchLookups epsW9 connW9).reduceOption 7 0.75
         else (stitchLookups epsW9 connW9).reduceOption])) := by
  have hlk : stitchLookups epsW9 connW9 =
      [some (0, 0), some (0.1, 0), some (0.2, 0), some (0.3, 0), some (0.4, 0),
        some (0.5, 0)] := rfl
  have hn : none ∉ stitchLookups epsW9 connW9 := by
    rw [hlk]
    simp
  have hr : mapGet rclW9 connW9.color = some [] := rfl
  exact ⟨hn, hr, (stitch_connection_behaviour gpId 0.2 epsW9 rclW9 connW9).2 hn [] hr⟩

/-! ## Association-list map lemmas -/

theorem mapGet_mem {α : Type} {m : List (String × α)} {k : String} {v : α}
    (h : mapGet m k = some v) : (k, v) ∈ m := by
  induction m with
  | nil => simp [mapGet] at h
  | cons e rest ih =>
    rw [mapGet] at h
    by_cases he : e.1 = k
    · rw [if_pos he] at h
      obtain rfl := Option.some.inj h
      have hke : (k, e.2) = e := by
        rw [← he]
      rw [hke]
      exact List.mem_cons_self e rest
    · rw [if_neg he] at h
      exact List.mem_cons_of_mem e (ih h)

theorem mapGet_map_replace_self {α : Type} {m : List (String × α)} {k : String} {w : α} (v : α)
    (h : mapGet m k = some w) :
    mapGet (m.map (fun e => if e.1 = k then (k, v) else e)) k = some v := by
  induction m with
  | nil => simp [mapGet] at h
  | cons e rest ih =>
    rw [mapGet] at h
    simp only [List.map_cons]
    by_cases he : e.1 = k
    · rw [if_pos he, mapGet, if_pos rfl]
    · rw [if_neg he] at h
      rw [if_neg he, mapGet, if_neg he]
      exact ih h

theorem mapGet_map_replace_other {α : Type} {m : List (String × α)} {k c : String} {v : α}
    (h : c ≠ k) :
    mapGet (m.map (fun e => if e.1 = k then (k, v) else e)) c = mapGet m c := by
  induction m with
  | nil => rfl
  | cons e rest ih =>
    simp only [List.map_cons]
    by_cases he : e.1 = k
    · rw [if_pos he, mapGet, mapGet, if_neg (fun hh : k = c => h hh.symm),
        if_neg (fun hh : e.1 = c => h (hh.symm.trans he))]
      exact ih
    · rw [if_neg he, mapGet, mapGet]
      by_cases hc : e.1 = c
      · rw [if_pos hc, if_pos hc]
      · rw [if_neg hc, if_neg hc]
        exact ih

theorem mapGet_append_of_isSome {α : Type} {m : List (String × α)} {k : String}
    (m2 : List (String × α)) (h : (mapGet m k).isSome) :
    mapGet (m ++ m2) k = mapGet m k := by
  induction m with
  | nil => simp [mapGet] at h
  | cons e rest ih =>
    rw [List.cons_append, mapGet, mapGet]
    rw [mapGet] at h
    by_cases he : e.1 = k
    · rw [if_pos he, if_pos he]
    · rw [if_neg he] at h
      rw [if_neg he, if_neg he]
      exact ih h

theorem mapGet_append_of_none {α : Type} {m : List (String × α)} {k : String}
    (m2 : List (String × α)) (h : mapGet m k = none) :
    mapGet (m ++ m2) k = mapGet m2 k := by
  induction m with
  | nil => rfl
  | cons e rest ih =>
    rw [mapGet] at h
    rw [List.cons_append, mapGet]
    by_cases he : e.1 = k
    · rw [if_pos he] at h
      simp at h
    · rw [if_neg he] at h
      rw [if_neg he]
      exact ih h

theorem mapGet_mapSet_self {α : Type} (m : List (String × α)) (k : String) (v : α) :
    mapGet (mapSet m k v) k = some v := by
  unfold mapSet
  split
  · rename_i hsome
    obtain ⟨w, hw⟩ := Option.isSome_iff_exists.mp hsome
    exact mapGet_map_replace_self v hw
  · rename_i hnone
    have hn : mapGet m k = none := Option.not_isSome_iff_eq_none.mp hnone
    rw [mapGet_append_of_none _ hn, mapGet, if_pos rfl]

theorem mapGet_mapSet_other {α : Type} (m : List (String × α)) {k c : String} (v : α)
    (h : c ≠ k) : mapGet (mapSet m k v) c = mapGet m c := by
  unfold mapSet
  split
  · exact mapGet_map_replace_other h
  · cases hm : mapGet m c with
    | some w => rw [mapGet_append_of_isSome _ (by rw [hm]; rfl), hm]
    | none =>
      rw [mapGet_append_of_none _ hm]
      simp only [mapGet]
      rw [if_neg (fun hh : k = c => h hh.symm)]

theorem mapGet_mapSet_isSome {α : Type} (m : List (String × α)) {c : String} (k : String)
    (v : α) (h : (mapGet m c).isSome) : (mapGet (mapSet m k v) c).isSome := by
  by_cases he : c = k
  · rw [he, mapGet_mapSet_self]
    rfl
  · rw [mapGet_mapSet_other m v he]
    exact h

theorem mapGet_append_isSome {α : Type} (m m2 : List (String × α)) {c : String}
    (h : (mapGet m c).isSome) : (mapGet (m ++ m2) c).isSome := by
  rw [mapGet_append_of_isSome m2 h]
  exact h

theorem mapSet_key_mem {α : Type} {m : List (String × α)} {k : String} {v : α}
    {kv : String × α} (h : kv ∈ mapSet m k v) : kv.1 = k ∨ kv ∈ m := by
  unfold mapSet at h
  split at h
  · obtain ⟨e, he, hfe⟩ := List.mem_map.mp h
    by_cases hek : e.1 = k
    · rw [if_pos hek] at hfe
      exact Or.inl (by rw [← hfe])
    · rw [if_neg hek] at hfe
      exact Or.inr (hfe ▸ he)
  · rcases List.mem_append.mp h with h1 | h1
    · exact Or.inr h1
    · exact Or.inl (by rw [List.mem_singleton.mp h1])

/-! ## Endpoint-registry invariant through the first render loop -/

/-- Normalization of the inline endpoint-key templates to the canonical
`sid ++ ":" ++ color ++ ":" ++ part ++ variant` shape. -/
theorem key_norm (x c suf p v : String)
    (hsuf : suf.data = (":" : String).data ++ p.data ++ v.data) :
    x ++ ":" ++ c ++ suf = x ++ ":" ++ c ++ ":" ++ p ++ v := by
  apply str_data_inj
  simp only [String.data_append, List.append_assoc]
  rw [hsuf]
  simp [List.append_assoc]

theorem mkConn_canon (stroke : String) (prev cur : ℤ) : canonConn (mkConn stroke prev cur) := by
  unfold canonConn mkConn
  constructor
  · dsimp only
    split
    · exact Or.inl rfl
    · exact Or.inr rfl
  · dsimp only
    split
    · exact Or.inr rfl
    · exact Or.inl rfl

/-- One inner-loop iteration preserves the endpoint-registry invariant:
all six writes use the canonical key shape with the iteration's color,
and that color's rendered-lines entry is created or extended in the same
iteration. -/
theorem innerStep_inv (gp : GeoPrims) (spacing : ℝ) (fss : Bool) {sid : String}
    (hsid : ∃ i : ℕ, sid = "Segment:" ++ natToDecStr i) (lc : List coordpair) (ls : ℝ)
    (tl : ℕ) (acc : RenderAcc) (ic : ℕ × String) (hinv : epsInv acc.eps acc.rcl) :
    epsInv (innerStep gp spacing fss sid lc ls tl acc ic).eps
      (innerStep gp spacing fss sid lc ls tl acc ic).rcl := by
  obtain ⟨i, rfl⟩ := hsid
  unfold innerStep epsInv
  dsimp only
  intro kv hkv
  -- the rendered-lines map after the iteration
  have hnew : ∀ lp : List coordpair,
      (mapGet (match mapGet acc.rcl ic.2 with
        | some existing => mapSet acc.rcl ic.2 (existing ++ [lp])
        | none => acc.rcl ++ [(ic.2, [lp])]) ic.2).isSome := by
    intro lp
    cases hm : mapGet acc.rcl ic.2 with
    | some existing =>
      rw [mapGet_mapSet_self]
      rfl
    | none =>
      rw [mapGet_append_of_none _ hm, mapGet, if_pos rfl]
      rfl
  have hmono : ∀ lp : List coordpair, ∀ c, (mapGet acc.rcl c).isSome →
      (mapGet (match mapGet acc.rcl ic.2 with
        | some existing => mapSet acc.rcl ic.2 (existing ++ [lp])
        | none => acc.rcl ++ [(ic.2, [lp])]) c).isSome := by
    intro lp c hc
    cases hm : mapGet acc.rcl ic.2 with
    | some existing => exact mapGet_mapSet_isSome _ _ _ hc
    | none => exact mapGet_append_isSome _ _ hc
  -- peel the six writes
  rcases mapSet_key_mem hkv with h6 | hkv
  · exact ⟨i, ic.2, "bottom", ":buffer",
      by rw [h6]; exact key_norm _ _ ":bottom:buffer" "bottom" ":buffer" rfl,
      Or.inr rfl, Or.inr (Or.inr rfl), hnew _⟩
  rcases mapSet_key_mem hkv with h5 | hkv
  · exact ⟨i, ic.2, "bottom", ":invasive",
      by rw [h5]; exact key_norm _ _ ":bottom:invasive" "bottom" ":invasive" rfl,
      Or.inr rfl, Or.inr (Or.inl rfl), hnew _⟩
  rcases mapSet_key_mem hkv with h4 | hkv
  · exact ⟨i, ic.2, "bottom", "",
      by rw [h4]; exact key_norm _ _ ":bottom" "bottom" "" rfl,
      Or.inr rfl, Or.inl rfl, hnew _⟩
  rcases mapSet_key_mem hkv with h3 | hkv
  · exact ⟨i, ic.2, "top", ":buffer",
      by rw [h3]; exact key_norm _ _ ":top:buffer" "top" ":buffer" rfl,
      Or.inl rfl, Or.inr (Or.inr rfl), hnew _⟩
  rcases mapSet_key_mem hkv with h2 | hkv
  · exact ⟨i, ic.2, "top", ":invasive",
      by rw [h2]; exact key_norm _ _ ":top:invasive" "top" ":invasive" rfl,
      Or.inl rfl, Or.inr (Or.inl rfl), hnew _⟩
  rcases mapSet_key_mem hkv with h1 | hkv
  · exact ⟨i, ic.2, "top", "",
      by rw [h1]; exact key_norm _ _ ":top" "top" "" rfl,
      Or.inl rfl, Or.inl rfl, hnew _⟩
  · obtain ⟨j, c, p, v, hk, hp, hv, hs⟩ := hinv kv hkv
    exact ⟨j, c, p, v, hk, hp, hv, hmono _ c hs⟩

/-- The invariant is preserved along the whole inner loop. -/
theorem foldl_innerStep_inv (gp : GeoPrims) (spacing : ℝ) (fss : Bool) {sid : String}
    (hsid : ∃ i : ℕ, sid = "Segment:" ++ natToDecStr i) (lc : List coordpair) (ls : ℝ)
    (tl : ℕ) (l : List (ℕ × String)) :
    ∀ acc : RenderAcc, epsInv acc.eps acc.rcl →
      epsInv ((l.foldl (fun a p => innerStep gp spacing fss sid lc ls tl a p) acc)).eps
        ((l.foldl (fun a p => innerStep gp spacing fss sid lc ls tl a p) acc)).rcl := by
  induction l with
  | nil => exact fun acc h => h
  | cons p rest ih =>
    intro acc h
    rw [List.foldl_cons]
    exact ih _ (innerStep_inv gp spacing fss hsid lc ls tl acc p h)

/-- The invariant is preserved by one segment's render step. -/
theorem renderSegmentAcc_inv (gp : GeoPrims) (spacing : ℝ) (fss : Bool)
    (vb : List coordpair) (e : String × LineSegment)
    (hsid : ∃ i : ℕ, e.1 = "Segment:" ++ natToDecStr i) (acc : RenderAcc)
    (hinv : epsInv acc.eps acc.rcl) :
    epsInv (renderSegmentAcc gp spacing fss vb acc e).eps
      (renderSegmentAcc gp spacing fss vb acc e).rcl := by
  unfold renderSegmentAcc
  split
  · exact foldl_innerStep_inv gp spacing fss hsid _ _ _ _ acc hinv
  · exact hinv

/-- The invariant holds after the whole first render loop. -/
theorem foldl_renderSegmentAcc_inv (gp : GeoPrims) (spacing : ℝ) (fss : Bool)
    (vb : List coordpair) (segs : List (String × LineSegment))
    (hkeys : ∀ e ∈ segs, ∃ i : ℕ, e.1 = "Segment:" ++ natToDecStr i) :
    ∀ acc : RenderAcc, epsInv acc.eps acc.rcl →
      epsInv ((segs.foldl (fun acc e => renderSegmentAcc gp spacing fss vb acc e) acc)).eps
        ((segs.foldl (fun acc e => renderSegmentAcc gp spacing fss vb acc e) acc)).rcl := by
  induction segs with
  | nil => exact fun acc h => h
  | cons e rest ih =>
    intro acc h
    rw [List.foldl_cons]
    exact ih (fun e2 h2 => hkeys e2 (List.mem_cons_of_mem e h2)) _
      (renderSegmentAcc_inv gp spacing fss vb e (hkeys e (List.mem_cons_self e rest)) acc h)

theorem renderFirstLoop_inv (gp : GeoPrims) (spacing : ℝ) (fss : Bool)
    (vb : List coordpair) (segs : List (String × LineSegment))
    (hkeys : ∀ e ∈ segs, ∃ i : ℕ, e.1 = "Segment:" ++ natToDecStr i) :
    epsInv (renderFirstLoop gp spacing fss vb segs).1.eps
      (renderFirstLoop gp spacing fss vb segs).1.rcl := by
  unfold renderFirstLoop
  exact foldl_renderSegmentAcc_inv gp spacing fss vb segs hkeys ⟨[], []⟩
    (fun kv hkv => absurd hkv (by simp))

/-! ## Stitch-time key decomposition -/

/-- A stitch lookup key can only coincide with a registry key written for
the same color: the decimal segment id and the `top`/`bottom` tags are
colon-free, so the colon-joined key determines its color field. -/
theorem stitch_key_decomp {n i : ℕ} {color part c p v : String}
    (hpart : part = "top" ∨ part = "bottom") (hp : p = "top" ∨ p = "bottom")
    (hv : v = "" ∨ v = ":invasive" ∨ v = ":buffer")
    (h : stitchKey (n, part) color "" =
      "Segment:" ++ natToDecStr i ++ ":" ++ c ++ ":" ++ p ++ v) :
    color = c := by
  unfold stitchKey at h
  have hd := congrArg String.data h
  simp only [String.data_append, List.append_assoc,
    show (":" : String).data = [':'] from rfl,
    show ("" : String).data = ([] : List Char) from rfl,
    List.singleton_append, List.append_nil] at hd
  replace hd := List.append_cancel_left hd
  obtain ⟨-, hrest⟩ := colon_peel_left _ _ (natToDecStr_colon_free n) (natToDecStr_colon_free i) hd
  rcases hv with rfl | rfl | rfl
  · simp only [show ("" : String).data = ([] : List Char) from rfl, List.append_nil] at hrest
    obtain ⟨hcol, -⟩ := colon_peel_right _ _ (part_colon_free hpart) (part_colon_free hp) hrest
    exact str_data_inj hcol
  · have hre := hrest.trans
      (show c.data ++ ':' :: (p.data ++ ':' :: ("invasive" : String).data) =
        (c.data ++ ':' :: p.data) ++ ':' :: ("invasive" : String).data by simp)
    obtain ⟨-, hbad⟩ := colon_peel_right _ _ (part_colon_free hpart) (by decide) hre
    rcases hpart with rfl | rfl
    · exact absurd hbad (by decide)
    · exact absurd hbad (by decide)
  · have hre := hrest.trans
      (show c.data ++ ':' :: (p.data ++ ':' :: ("buffer" : String).data) =
        (c.data ++ ':' :: p.data) ++ ':' :: ("buffer" : String).data by simp)
    obtain ⟨-, hbad⟩ := colon_peel_right _ _ (part_colon_free hpart) (by decide) hre
    rcases hpart with rfl | rfl
    · exact absurd hbad (by decide)
    · exact absurd hbad (by decide)

/-- If the from-actual lookup of a connection succeeds against a registry
satisfying the invariant, the connection's color owns a rendered-lines
entry. -/
theorem stitch_lookup_color {eps : List (String × coordpair)}
    {rcl : List (String × List (List coordpair))} (hinv : epsInv eps rcl) (n : ℕ)
    {color part : String} (hpart : part = "top" ∨ part = "bottom")
    (hsome : (mapGet eps (stitchKey (n, part) color "")).isSome) :
    (mapGet rcl color).isSome := by
  obtain ⟨val, hval⟩ := Option.isSome_iff_exists.mp hsome
  have hmem := mapGet_mem hval
  obtain ⟨i, c, p, v, hkey, hp, hv, hsomec⟩ := hinv _ hmem
  rw [stitch_key_decomp hpart hp hv hkey]
  exact hsomec

theorem epsInv_mono {eps : List (String × coordpair)}
    {rcl rcl2 : List (String × List (List coordpair))} (hinv : epsInv eps rcl)
    (hmono : ∀ c, (mapGet rcl c).isSome → (mapGet rcl2 c).isSome) : epsInv eps rcl2 := by
  intro kv hkv
  obtain ⟨i, c, p, v, h1, h2, h3, h4⟩ := hinv kv hkv
  exact ⟨i, c, p, v, h1, h2, h3, hmono c h4⟩

theorem stitchConnection_mono {gp : GeoPrims} {fsc : Bool} {eps : List (String × coordpair)}
    {rcl rcl2 : List (String × List (List coordpair))} {conn : LineConnection}
    (h : stitchConnection gp fsc eps rcl conn = some rcl2) :
    ∀ c, (mapGet rcl c).isSome → (mapGet rcl2 c).isSome := by
  unfold stitchConnection at h
  simp only at h
  by_cases hcond : none ∈ stitchLookups eps conn
  · rw [if_pos hcond] at h
    obtain rfl := Option.some.inj h
    exact fun c hc => hc
  · rw [if_neg hcond] at h
    cases hm : mapGet rcl conn.color with
    | none =>
      rw [hm] at h
      simp at h
    | some lines =>
      rw [hm] at h
      obtain rfl := Option.some.inj h
      intro c hc
      exact mapGet_mapSet_isSome _ _ _ hc

/-- The stitching loop never dereferences a missing rendered-lines entry:
whenever all six lookups of a connection succeed, its color is present. -/
theorem stitchLoop_isSome (gp : GeoPrims) (fsc : Bool) (eps : List (String × coordpair))
    (conns : List LineConnection) (hcanon : ∀ c ∈ conns, canonConn c) :
    ∀ rcl, epsInv eps rcl → (stitchLoop gp fsc eps rcl conns).isSome := by
  induction conns with
  | nil =>
    intro rcl _
    rw [stitchLoop]
    rfl
  | cons conn rest ih =>
    intro rcl hinv
    rw [stitchLoop]
    have hstep : ∃ rcl2, stitchConnection gp fsc eps rcl conn = some rcl2 := by
      unfold stitchConnection
      by_cases hall : none ∈ stitchLookups eps conn
      · exact ⟨rcl, by simp only [if_pos hall]⟩
      · have h1 : (mapGet eps (stitchKey conn.from_ conn.color "")).isSome := by
          cases hx : mapGet eps (stitchKey conn.from_ conn.color "") with
          | none => exact absurd (by simp [stitchLookups, hx]) hall
          | some _ => rfl
        have hcan := hcanon conn (List.mem_cons_self conn rest)
        have hsome := stitch_lookup_color hinv conn.from_.1 hcan.1 h1
        cases hm : mapGet rcl conn.color with
        | none =>
          rw [hm] at hsome
          simp at hsome
        | some lines =>
          exact ⟨mapSet rcl conn.color (lines ++
              [if fsc then gp.smooth (stitchLookups eps conn).reduceOption 7 0.75
               else (stitchLookups eps conn).reduceOption]),
            by simp only [if_neg hall, hm]⟩
    obtain ⟨rcl2, hstep⟩ := hstep
    rw [hstep]
    exact ih (fun c h => hcanon c (List.mem_cons_of_mem conn h)) rcl2
      (epsInv_mono hinv (stitchConnection_mono hstep))

/-- Segment-map keys produced by ingestion have the `Segment:<i>` shape. -/
theorem extract_segments_keys (T : topojsonExport) :
    ∀ e ∈ ExtractLineSegments T, ∃ i : ℕ, e.1 = "Segment:" ++ natToDecStr i := by
  intro e he
  unfold ExtractLineSegments at he
  obtain ⟨i, _, he2⟩ := List.mem_map.mp he
  exact ⟨i, by rw [← he2]⟩

/-- Connections produced by ingestion carry canonical endpoint tags. -/
theorem extract_connections_canon (T : topojsonExport) (conns : List LineConnection)
    (h : extractLineConnections T = some conns) : ∀ c ∈ conns, canonConn c := by
  unfold extractLineConnections at h
  split at h
  · exact absurd h (by simp)
  · replace h := (Option.some.inj h).symm
    intro c hc
    rw [h] at hc
    have hm := (foldl_addConn_subset _ ⟨[], []⟩ c hc).resolve_left (by simp)
    simp only [List.mem_flatMap, routeConns, List.mem_map] at hm
    obtain ⟨g, -, pr, -, he⟩ := hm
    rw [← he]
    exact mkConn_canon g.stroke pr.1 pr.2

/-- C10: for every render call on a state produced by topology ingestion,
if all six endpoint-registry lookups of a connection return a value then
the per-color rendered-lines map already contains that connection's color
(an endpoint is only registered alongside creating or extending that
color's entry), so the stitch loop never dereferences a missing map entry
and the render returns a feature collection. -/
theorem render_stitch_safe (T : topojsonExport) (gp : GeoPrims) (st : WorkerState)
    (RequestedSpacing : ℝ) (viewbox : List coordpair)
    (h : processTopologies T = some st) :
    ((renderLines gp st RequestedSpacing viewbox).1).isSome := by
  unfold processTopologies at h
  cases hx : extractLineConnections T with
  | none =>
    rw [hx] at h
    simp at h
  | some conns =>
    rw [hx] at h
    replace h := (Option.some.inj h).symm
    rw [h]
    unfold renderLines renderCore
    dsimp only
    have hs := stitchLoop_isSome gp
      (decide (renderSpacing RequestedSpacing < 0.11))
      (renderFirstLoop gp (renderSpacing RequestedSpacing)
        (decide (renderSpacing RequestedSpacing < 0.007)) viewbox
        (ExtractLineSegments T)).1.eps
      conns (extract_connections_canon T conns hx)
      (renderFirstLoop gp (renderSpacing RequestedSpacing)
        (decide (renderSpacing RequestedSpacing < 0.007)) viewbox
        (ExtractLineSegments T)).1.rcl
      (renderFirstLoop_inv gp _ _ viewbox (ExtractLineSegments T) (extract_segments_keys T))
    obtain ⟨x, hx2⟩ := Option.isSome_iff_exists.mp hs
    rw [hx2]
    rfl

/-- Witness for C10 at a concrete ingested topology. -/
theorem render_stitch_safe_witness :
    processTopologies topoW =
      some { LineSegments := ExtractLineSegments topoW, LineConnections := connsW } ∧
    ((renderLines gpId
        { LineSegments := ExtractLineSegments topoW, LineConnections := connsW }
        0.2 []).1).isSome := by
  have h : processTopologies topoW =
      some { LineSegments := ExtractLineSegments topoW, LineConnections := connsW } := rfl
  exact ⟨h, render_stitch_safe topoW gpId _ 0.2 [] h⟩

end MapViewer
